import Mathlib

/-!
Verification of the agents-starter chat pipeline.

Shallow embedding of the data model and operations of the repository:
the tool-call confirmation pipeline, the bounded multi-step generation
loop, the stream composition with source annotations, the worker fetch
guard (src/server.ts), the client-side pending-confirmation scan
(src/app.tsx), and the markdown block splitter
(src/components/markdown/MemoizedMarkdown.tsx).

The confirmation pipeline itself (processToolCalls in ./utils, the
APPROVAL tokens in ./shared, the tool registry in ./tools) and the
generation loop of the ai SDK are not part of the available sources;
those definitions are modelled from the specification and are marked
as such in their doc comments.
-/

namespace AgentsStarter

/-! ## Data model (spec section 3; message shape used by src/app.tsx) -/

inductive Role where
  | user
  | assistant
  | system
deriving DecidableEq, Repr

/-- State machine of a tool invocation: invoked and awaiting resolution,
or terminal with a result value. -/
inductive ToolState where
  | call
  | result
deriving DecidableEq, Repr

structure ToolInvocation where
  toolCallId : String
  toolName : String
  args : String
  state : ToolState
  result : Option String
deriving DecidableEq, Repr

/-- Polymorphic message part: text, tool invocation, or provenance source. -/
inductive Part where
  | text (t : String)
  | toolInvocation (ti : ToolInvocation)
  | source (url : String)
deriving DecidableEq, Repr

structure Message where
  id : String
  role : Role
  parts : List Part
deriving DecidableEq, Repr

/-! ## Embedded from src/app.tsx -/

/-- List of tools that require human confirmation (src/app.tsx lines 31-33). -/
def toolsRequiringConfirmation : List String := ["getWeatherInformation"]

/-- Whether some message holds a confirmation-gated tool invocation still in
call state (src/app.tsx lines 97-106). -/
def pendingToolCallConfirmation (ms : List Message) : Bool :=
  ms.any fun m => m.parts.any fun p =>
    match p with
    | Part.toolInvocation ti =>
      decide (ti.state = ToolState.call) &&
        toolsRequiringConfirmation.contains ti.toolName
    | _ => false

/-! ## Confirmation pipeline, modelled from the spec

The repository functions processToolCalls (imported from ./utils in
src/server.ts) and the APPROVAL decision tokens (imported from ./shared
in src/app.tsx) are not among the available source files; the
definitions below are modelled from spec sections 4.2, 4.3 and 4.4. -/

/-- Modelled from the spec: the decision token recorded for a pending
confirmation-gated call, one of APPROVE or REJECT (spec section 4.3;
the APPROVAL constants of ./shared are not in the available sources). -/
inductive Decision where
  | approve
  | reject
deriving DecidableEq, Repr

/-- Modelled from the spec: the fixed sentinel string signaling user-denied
execution written for a REJECT decision (spec section 4.3). -/
def userDeniedSentinel : String := "Error: User denied access to tool execution"

/-- Modelled from the spec: the error-shaped sentinel value recording a
tool execution failure as data (spec section 4.4). -/
def errorSentinel (msg : String) : String := "Error: " ++ msg

/-- Decision payload of the incoming turn: a mapping from toolCallId to a
decision token; a toolCallId absent from the mapping means still
undecided (spec sections 4.3 and 6). -/
abbrev DecisionMap := String → Option Decision

/-- Registered execution functions, by tool name; a tool whose execution
throws is modelled by an Except.error result (spec sections 4.1 and 4.4). -/
abbrev ExecMap := String → Option (String → Except String String)

/-- Modelled from the spec: resolve a single part against the decision
payload (spec sections 4.3 and 4.4, the body of processToolCalls in
./utils). Returns the rewritten part together with the list of
toolCallIds whose registered execution function was invoked while
resolving this part. -/
def resolvePart (d : DecisionMap) (e : ExecMap) (p : Part) : Part × List String :=
  match p with
  | Part.toolInvocation ti =>
    if ti.state = ToolState.call ∧ ti.toolName ∈ toolsRequiringConfirmation then
      match d ti.toolCallId with
      | some Decision.reject =>
        (Part.toolInvocation
          ⟨ti.toolCallId, ti.toolName, ti.args, ToolState.result, some userDeniedSentinel⟩, [])
      | some Decision.approve =>
        match e ti.toolName with
        | some f =>
          match f ti.args with
          | Except.ok v =>
            (Part.toolInvocation
              ⟨ti.toolCallId, ti.toolName, ti.args, ToolState.result, some v⟩, [ti.toolCallId])
          | Except.error err =>
            (Part.toolInvocation
              ⟨ti.toolCallId, ti.toolName, ti.args, ToolState.result,
                some (errorSentinel err)⟩, [ti.toolCallId])
        | none => (p, [])
      | none => (p, [])
    else (p, [])
  | _ => (p, [])

/-- Rewrite one message by resolving each of its parts in array order
(spec section 4.3). -/
def processMessage (d : DecisionMap) (e : ExecMap) (m : Message) : Message :=
  ⟨m.id, m.role, m.parts.map fun p => (resolvePart d e p).1⟩

/-- ToolCallIds whose execution function runs while resolving one part. -/
def partInvocations (d : DecisionMap) (e : ExecMap) (p : Part) : List String :=
  (resolvePart d e p).2

/-- Index of the most recent assistant message, if any (spec section 4.2). -/
def lastAssistantIdx : List Message → Option Nat
  | [] => none
  | m :: ms =>
    match lastAssistantIdx ms with
    | some i => some (i + 1)
    | none => if m.role = Role.assistant then some 0 else none

/-- Apply a function to the element at one index, leaving the rest alone. -/
def rewriteAt (f : Message → Message) : Nat → List Message → List Message
  | _, [] => []
  | 0, m :: ms => f m :: ms
  | n + 1, m :: ms => m :: rewriteAt f n ms

/-- Modelled from the spec: the PendingCallScanner/ConfirmationResolver
pass over the history (processToolCalls of ./utils): only the most
recent assistant message is scanned and rewritten; every other message
is left untouched (spec sections 4.2 and 4.3). -/
def processToolCalls (d : DecisionMap) (e : ExecMap) (ms : List Message) : List Message :=
  match lastAssistantIdx ms with
  | none => ms
  | some li => rewriteAt (processMessage d e) li ms

/-- ToolCallIds whose registered execution function is invoked during one
resolver pass over the history. -/
def invokedCalls (d : DecisionMap) (e : ExecMap) (ms : List Message) : List String :=
  match lastAssistantIdx ms with
  | none => []
  | some li =>
    match ms[li]? with
    | none => []
    | some m => (m.parts.map (partInvocations d e)).flatten

/-- A pending confirmation-gated call reported by the scanner
(spec section 4.2). -/
structure PendingCall where
  msgIdx : Nat
  partIdx : Nat
  toolCallId : String
  toolName : String
  args : String
deriving DecidableEq, Repr

/-- Scan the parts of one message for confirmation-gated invocations in
call state (spec section 4.2). -/
def scanParts (mi : Nat) : Nat → List Part → List PendingCall
  | _, [] => []
  | k, p :: ps =>
    match p with
    | Part.toolInvocation ti =>
      if ti.state = ToolState.call ∧ ti.toolName ∈ toolsRequiringConfirmation then
        ⟨mi, k, ti.toolCallId, ti.toolName, ti.args⟩ :: scanParts mi (k + 1) ps
      else scanParts mi (k + 1) ps
    | _ => scanParts mi (k + 1) ps

/-- Modelled from the spec: the PendingCallScanner fast path, scanning only
the most recent assistant message for actionable pending calls
(spec section 4.2). -/
def pendingCallScanner (ms : List Message) : List PendingCall :=
  match lastAssistantIdx ms with
  | none => []
  | some li =>
    match ms[li]? with
    | none => []
    | some m => scanParts li 0 m.parts

/-! ## Stream composition and generation loop

The events of the wire stream, the terminal states of one turn and the
bounded multi-step generation loop. The loop itself lives in the ai SDK
(streamText, called in src/server.ts lines 67-158); its step semantics
is modelled from spec sections 4.5 and 6; the configured step budget,
the source annotation body and the worker fetch guard are embedded from
src/server.ts. -/

/-- A provenance source record attached by search grounding
(src/app.tsx lines 36-42, src/server.ts lines 113-124). -/
structure Source where
  url : String
  title : Option String
deriving DecidableEq, Repr

/-- One event of the multiplexed output stream (spec section 6). -/
inductive StreamEvent where
  | textDelta (s : String)
  | toolCallEvt (name : String) (args : String) (id : String)
  | toolResultEvt (id : String) (result : String)
  | annotationEvt (sources : List Source)
  | errorEvent (msg : String)
  | finish
deriving DecidableEq, Repr

/-- Terminal states of one turn (spec section 4.5). -/
inductive Terminal where
  | done
  | failed
  | awaitingConfirmation
deriving DecidableEq, Repr

/-- Outcome of one model step: a final text answer, a tool call, or a
provider-level error (spec sections 4.5 and 6). -/
inductive StepOut where
  | text (s : String)
  | callTool (name : String) (args : String) (id : String)
  | providerError (msg : String)
deriving DecidableEq, Repr

/-- Result of driving the generation loop for one turn: the flushed
stream events, the terminal state and the number of provider
invocations consumed. -/
structure TurnResult where
  events : List StreamEvent
  terminal : Terminal
  stepsUsed : Nat
deriving DecidableEq, Repr

/-- Run a registered execution function, capturing a thrown error as the
error-shaped sentinel value (spec section 4.4). -/
def execTool (e : ExecMap) (name args : String) : String :=
  match e name with
  | none => errorSentinel "tool not found"
  | some f =>
    match f args with
    | Except.ok v => v
    | Except.error err => errorSentinel err

/-- Modelled from the spec: the bounded multi-step generation loop driven
by streamText (spec section 4.5; the loop implementation belongs to the
ai SDK, not to the available sources). Each budget unit is one provider
invocation; a text answer ends the turn with Done, a gated tool call
pauses the turn with AwaitingConfirmation, an auto-executing tool call
is run at once (errors captured as data) and the loop continues, a
provider error ends the turn with Failed, and an exhausted budget
forces termination with Done. -/
def genLoop (e : ExecMap) (mf : Nat → StepOut) : Nat → Nat → TurnResult
  | _, 0 => ⟨[], Terminal.done, 0⟩
  | step, b + 1 =>
    match mf step with
    | StepOut.text s => ⟨[StreamEvent.textDelta s], Terminal.done, 1⟩
    | StepOut.providerError msg => ⟨[StreamEvent.errorEvent msg], Terminal.failed, 1⟩
    | StepOut.callTool name args id =>
      if name ∈ toolsRequiringConfirmation then
        ⟨[StreamEvent.toolCallEvt name args id], Terminal.awaitingConfirmation, 1⟩
      else
        let rest := genLoop e mf (step + 1) b
        ⟨StreamEvent.toolCallEvt name args id ::
            StreamEvent.toolResultEvt id (execTool e name args) :: rest.events,
          rest.terminal, rest.stepsUsed + 1⟩

/-- Maximum number of model-reasoning/tool-call steps per turn in the
server configuration (src/server.ts line 157). -/
def maxSteps : Nat := 10

/-- One full turn: the resolver pass over the history followed by the
generation loop (src/server.ts lines 59-161, onChatMessage). -/
def runTurn (d : DecisionMap) (e : ExecMap) (mf : Nat → StepOut) (budget : Nat)
    (ms : List Message) : List Message × TurnResult :=
  (processToolCalls d e ms, genLoop e mf 0 budget)

/-! ## Source annotations (src/server.ts, onFinish) -/

/-- The message annotation writes performed by the onFinish callback
(src/server.ts lines 111-124): the googleSources annotation is written
exactly when the finished result carries a non-empty sources list, and
then carries exactly that list. -/
def onFinishSourceAnnotations (sources : Option (List Source)) : List (List Source) :=
  match sources with
  | some ss => if ss.length > 0 then [ss] else []
  | none => []

/-- Whether a stream event is part of the ordered content stream
(text or tool events). -/
def isContentEvent : StreamEvent → Bool
  | StreamEvent.textDelta _ => true
  | StreamEvent.toolCallEvt _ _ _ => true
  | StreamEvent.toolResultEvt _ _ => true
  | _ => false

def isAnnotationEvent : StreamEvent → Bool
  | StreamEvent.annotationEvt _ => true
  | _ => false

def isErrorEvent : StreamEvent → Bool
  | StreamEvent.errorEvent _ => true
  | _ => false

/-- Modelled from the spec: the per-message wire stream. The content
events are flushed first; the onFinish callback runs when generation
for the message completes, so its annotation writes follow every
content part, and the stream closes with the finish marker
(spec sections 4.5 and 6; src/server.ts lines 111-126). -/
def messageStream (content : List StreamEvent) (sources : Option (List Source)) :
    List StreamEvent :=
  content ++ (onFinishSourceAnnotations sources).map StreamEvent.annotationEvt ++
    [StreamEvent.finish]

/-! ## Worker fetch guard (src/server.ts lines 185-201) -/

structure SimpleResponse where
  status : Nat
  body : String
deriving DecidableEq, Repr

/-- JavaScript falsiness of the configured api key: unset or empty
(the check on src/server.ts line 187). -/
def keyMissing : Option String → Bool
  | none => true
  | some s => s.isEmpty

/-- The worker fetch entry point (src/server.ts lines 185-201): when the
GOOGLE_GENERATIVE_AI_API_KEY configuration is missing the handler
returns a 500 response with an empty output stream before any routing;
otherwise the request is routed to the agent, or answered with 404. -/
def workerFetch (apiKey : Option String)
    (routed : Option (SimpleResponse × List StreamEvent)) :
    SimpleResponse × List StreamEvent :=
  if keyMissing apiKey then
    (⟨500, "GOOGLE_GENERATIVE_AI_API_KEY is not set"⟩, [])
  else
    match routed with
    | some r => r
    | none => (⟨404, "Not found"⟩, [])

/-! ## Markdown block splitting
(src/components/markdown/MemoizedMarkdown.tsx, parseMarkdownIntoBlocks) -/

/-- Newline normalization of parseMarkdownIntoBlocks: every CRLF pair
replaced by a single LF (the replace call on line 17 of the source). -/
def normalizeNewlines : List Char → List Char
  | '\r' :: '\n' :: cs => '\n' :: normalizeNewlines cs
  | c :: cs => c :: normalizeNewlines cs
  | [] => []

/-- Block-level token kind of the modelled lexer. -/
inductive MdTokenKind where
  | space
  | paragraph
deriving DecidableEq, Repr

/-- A block token together with the exact raw slice of source it covers. -/
structure MdToken where
  kind : MdTokenKind
  raw : List Char
deriving DecidableEq, Repr

/-- Split a character sequence into lines; every line except possibly the
last keeps its terminating newline, so no character is lost. -/
def splitLines : List Char → List (List Char)
  | [] => []
  | c :: cs =>
    match splitLines cs with
    | [] => [[c]]
    | l :: ls => if c = '\n' then [c] :: l :: ls else (c :: l) :: ls

/-- A line consisting only of whitespace, lexed as part of a space token. -/
def isBlankLine (l : List Char) : Bool :=
  l.all fun c => c = '\n' || c = ' ' || c = '\t'

def classifyLine (l : List Char) : MdTokenKind :=
  if isBlankLine l then MdTokenKind.space else MdTokenKind.paragraph

/-- Group consecutive lines of the same kind into one token whose raw
slice is the concatenation of the grouped lines. -/
def groupLines : List (List Char) → List MdToken
  | [] => []
  | l :: ls =>
    match groupLines ls with
    | [] => [⟨classifyLine l, l⟩]
    | t :: ts =>
      if classifyLine l = t.kind then ⟨t.kind, l ++ t.raw⟩ :: ts
      else ⟨classifyLine l, l⟩ :: t :: ts

/-- Modelled from the spec: the external marked.lexer block tokenizer used
by parseMarkdownIntoBlocks (a third-party library, out of scope in the
spec and absent from the sources), modelled as a block tokenizer whose
tokens carry the exact raw source slices they consumed. -/
def markedLexer (l : List Char) : List MdToken :=
  groupLines (splitLines l)

/-- parseMarkdownIntoBlocks
(src/components/markdown/MemoizedMarkdown.tsx lines 16-20): normalize
line endings, lex into block tokens, return the raw slice of each. -/
def parseMarkdownIntoBlocks (s : String) : List String :=
  (markedLexer (normalizeNewlines s.data)).map fun t => String.mk t.raw

/-! ## Helper lemmas -/

theorem splitLines_flatten (l : List Char) : (splitLines l).flatten = l := by
  induction l with
  | nil => rfl
  | cons c cs ih =>
    simp only [splitLines]
    cases h : splitLines cs with
    | nil =>
      rw [h] at ih
      simp at ih
      simp [ih]
    | cons x xs =>
      rw [h] at ih
      by_cases hc : c = '\n'
      · simp [hc, List.flatten] at ih ⊢
        exact ih
      · simp [hc, List.flatten] at ih ⊢
        exact ih

theorem groupLines_flatten (ls : List (List Char)) :
    ((groupLines ls).map MdToken.raw).flatten = ls.flatten := by
  induction ls with
  | nil => rfl
  | cons l ls ih =>
    simp only [groupLines]
    cases h : groupLines ls with
    | nil =>
      rw [h] at ih
      simp at ih ⊢
      exact ih
    | cons t ts =>
      rw [h] at ih
      by_cases hk : classifyLine l = t.kind
      · simp only [hk, if_pos rfl, List.map, List.flatten] at ih ⊢
        simp at ih ⊢
        exact ih
      · simp only [if_neg hk, List.map, List.flatten] at ih ⊢
        simp at ih ⊢
        exact ih

theorem strmk_append (a b : List Char) :
    String.mk a ++ String.mk b = String.mk (a ++ b) := rfl

theorem joinGo (css : List (List Char)) (acc : List Char) :
    List.foldl (fun r s => r ++ s) (String.mk acc) (css.map String.mk) =
      String.mk (acc ++ css.flatten) := by
  induction css generalizing acc with
  | nil => simp
  | cons c cs ih =>
    simp only [List.map, List.foldl, List.flatten]
    rw [strmk_append, ih, List.append_assoc]

theorem join_mk (css : List (List Char)) :
    String.join (css.map String.mk) = String.mk css.flatten := by
  have h := joinGo css []
  simpa [String.join] using h

theorem rewriteAt_getElem?_ne (f : Message → Message) (n i : Nat) (ms : List Message)
    (h : i ≠ n) : (rewriteAt f n ms)[i]? = ms[i]? := by
  induction ms generalizing n i with
  | nil => simp [rewriteAt]
  | cons m ms ih =>
    cases n with
    | zero =>
      cases i with
      | zero => exact absurd rfl h
      | succ j => simp [rewriteAt]
    | succ n =>
      cases i with
      | zero => simp [rewriteAt]
      | succ j =>
        simp only [rewriteAt, List.getElem?_cons_succ]
        exact ih n j (by omega)

theorem rewriteAt_getElem?_eq (f : Message → Message) (n : Nat) (ms : List Message) :
    (rewriteAt f n ms)[n]? = (ms[n]?).map f := by
  induction ms generalizing n with
  | nil => simp [rewriteAt]
  | cons m ms ih =>
    cases n with
    | zero => simp [rewriteAt]
    | succ n =>
      simp only [rewriteAt, List.getElem?_cons_succ]
      exact ih n

theorem rewriteAt_self (f : Message → Message) (n : Nat) (ms : List Message)
    (h : ∀ m, ms[n]? = some m → f m = m) : rewriteAt f n ms = ms := by
  induction ms generalizing n with
  | nil => cases n <;> rfl
  | cons m ms ih =>
    cases n with
    | zero =>
      simp only [rewriteAt]
      rw [h m (by simp)]
    | succ n =>
      simp only [rewriteAt]
      rw [ih n (fun m' hm' => h m' (by simpa using hm'))]

theorem resolvePart_eq_self (d : DecisionMap) (e : ExecMap) (p : Part)
    (h : ∀ ti, p = Part.toolInvocation ti → ti.state = ToolState.call →
      ti.toolName ∈ toolsRequiringConfirmation → d ti.toolCallId = none) :
    resolvePart d e p = (p, []) := by
  cases p with
  | text t => rfl
  | source u => rfl
  | toolInvocation ti =>
    simp only [resolvePart]
    by_cases hc : ti.state = ToolState.call ∧ ti.toolName ∈ toolsRequiringConfirmation
    · rw [if_pos hc, h ti rfl hc.1 hc.2]
    · rw [if_neg hc]

theorem partInvocations_mem (d : DecisionMap) (e : ExecMap) (p : Part) (x : String)
    (hx : x ∈ partInvocations d e p) :
    ∃ ti, p = Part.toolInvocation ti ∧ x = ti.toolCallId ∧
      d ti.toolCallId = some Decision.approve := by
  cases p with
  | text t => simp [partInvocations, resolvePart] at hx
  | source u => simp [partInvocations, resolvePart] at hx
  | toolInvocation ti =>
    refine ⟨ti, rfl, ?_⟩
    by_cases hc : ti.state = ToolState.call ∧ ti.toolName ∈ toolsRequiringConfirmation
    · cases hd : d ti.toolCallId with
      | none => simp [partInvocations, resolvePart, hc, hd] at hx
      | some dec =>
        cases dec with
        | reject => simp [partInvocations, resolvePart, hc, hd] at hx
        | approve =>
          cases he : e ti.toolName with
          | none => simp [partInvocations, resolvePart, hc, hd, he] at hx
          | some f =>
            cases hf : f ti.args with
            | ok v =>
              simp [partInvocations, resolvePart, hc, hd, he, hf] at hx
              exact ⟨hx, rfl⟩
            | error err =>
              simp [partInvocations, resolvePart, hc, hd, he, hf] at hx
              exact ⟨hx, rfl⟩
    · simp [partInvocations, resolvePart, hc] at hx

theorem scanParts_msgIdx (mi k : Nat) (ps : List Part) :
    ∀ pc ∈ scanParts mi k ps, pc.msgIdx = mi := by
  induction ps generalizing k with
  | nil => intro pc hpc; simp [scanParts] at hpc
  | cons p ps ih =>
    intro pc hpc
    cases p with
    | text t => exact ih (k + 1) pc hpc
    | source u => exact ih (k + 1) pc hpc
    | toolInvocation ti =>
      simp only [scanParts] at hpc
      by_cases hc : ti.state = ToolState.call ∧ ti.toolName ∈ toolsRequiringConfirmation
      · rw [if_pos hc] at hpc
        cases hpc with
        | head => rfl
        | tail _ h => exact ih (k + 1) pc h
      · rw [if_neg hc] at hpc
        exact ih (k + 1) pc hpc

/-! ## Concrete inputs used by the witnesses -/

def tiEx : ToolInvocation :=
  ⟨"call-1", "getWeatherInformation", "Tokyo", ToolState.call, none⟩

def msgUserEx : Message := ⟨"m1", Role.user, [Part.text "hi"]⟩

def msgAsstEx : Message := ⟨"m2", Role.assistant, [Part.toolInvocation tiEx]⟩

def msEx : List Message := [msgUserEx, msgAsstEx]

def dRejectEx : DecisionMap :=
  fun id => if id = "call-1" then some Decision.reject else none

def dApproveEx : DecisionMap :=
  fun id => if id = "call-1" then some Decision.approve else none

def dNoneEx : DecisionMap := fun _ => none

def eEx : ExecMap := fun name =>
  if name = "getWeatherInformation" then some (fun _ => Except.error "boom")
  else if name = "getLocalTime" then some (fun _ => Except.error "down")
  else none

def msgAsst0Ex : Message := ⟨"m0", Role.assistant, [Part.toolInvocation tiEx]⟩

def msgAsst2Ex : Message := ⟨"m4", Role.assistant, [Part.text "ok"]⟩

def ms3Ex : List Message := [msgAsst0Ex, msgUserEx, msgAsst2Ex]

/-! ## Claims -/

/-- C1: For every conversation history and every confirmation-gated
ToolInvocation part in call state whose toolCallId maps to the REJECT
decision token in the incoming decision payload, the resolver pass
rewrites that part to state result carrying the fixed user-denied
sentinel value, and the tool's registered execution function is never
invoked for that call. -/
theorem reject_rewrites_to_denied_sentinel
    (d : DecisionMap) (e : ExecMap) (ms : List Message) (li k : Nat)
    (m : Message) (ti : ToolInvocation)
    (hli : lastAssistantIdx ms = some li)
    (hm : ms[li]? = some m)
    (hp : m.parts[k]? = some (Part.toolInvocation ti))
    (hst : ti.state = ToolState.call)
    (hg : ti.toolName ∈ toolsRequiringConfirmation)
    (hd : d ti.toolCallId = some Decision.reject)
    (huniq : ∀ k' ti', k' ≠ k → m.parts[k']? = some (Part.toolInvocation ti') →
      ti'.toolCallId ≠ ti.toolCallId) :
    (processToolCalls d e ms)[li]? = some (processMessage d e m) ∧
    (processMessage d e m).parts[k]? =
      some (Part.toolInvocation
        ⟨ti.toolCallId, ti.toolName, ti.args, ToolState.result,
          some userDeniedSentinel⟩) ∧
    ti.toolCallId ∉ invokedCalls d e ms := by
  refine ⟨?_, ?_, ?_⟩
  · simp only [processToolCalls, hli]
    rw [rewriteAt_getElem?_eq, hm]
    rfl
  · simp only [processMessage]
    rw [List.getElem?_map, hp]
    simp [resolvePart, hst, hg, hd]
  · intro hmem
    simp only [invokedCalls, hli, hm] at hmem
    rw [List.mem_flatten] at hmem
    obtain ⟨l, hl, hxl⟩ := hmem
    rw [List.mem_map] at hl
    obtain ⟨p, hpmem, rfl⟩ := hl
    obtain ⟨ti', hpeq, hxid, hda⟩ := partInvocations_mem d e p ti.toolCallId hxl
    obtain ⟨k', hk'lt, hk'⟩ := List.mem_iff_getElem.1 hpmem
    have hk'g : m.parts[k']? = some p := by
      rw [List.getElem?_eq_getElem hk'lt, hk']
    by_cases hkk : k' = k
    · subst hkk
      rw [hp] at hk'g
      have hpti : p = Part.toolInvocation ti := by
        injection hk'g with h2
        exact h2.symm
      rw [hpti] at hpeq
      injection hpeq with h3
      rw [← h3] at hda
      rw [hda] at hd
      exact Decision.noConfusion (Option.some.inj hd)
    · have hti' : m.parts[k']? = some (Part.toolInvocation ti') := by
        rw [hk'g, hpeq]
      exact huniq k' ti' hkk hti' hxid.symm

/-- Witness for C1 at a concrete two-message history. -/
theorem reject_rewrites_to_denied_sentinel_witness :
    (processToolCalls dRejectEx eEx msEx)[1]? =
      some (processMessage dRejectEx eEx msgAsstEx) ∧
    (processMessage dRejectEx eEx msgAsstEx).parts[0]? =
      some (Part.toolInvocation
        ⟨"call-1", "getWeatherInformation", "Tokyo", ToolState.result,
          some userDeniedSentinel⟩) ∧
    "call-1" ∉ invokedCalls dRejectEx eEx msEx :=
  reject_rewrites_to_denied_sentinel dRejectEx eEx msEx 1 0 msgAsstEx tiEx
    (by decide) (by decide) (by decide) (by decide) (by decide) (by decide)
    (by
      intro k' ti' hk h
      cases k' with
      | zero => exact absurd rfl hk
      | succ n => simp [msgAsstEx] at h)

/-- C2: a confirmation-gated ToolInvocation part in call state whose
toolCallId is absent from the incoming decision payload is unchanged
after one PendingCallScanner/ConfirmationResolver pass, and the pass is
the identity (hence idempotent) under a no-decision payload. -/
theorem undecided_call_untouched (d : DecisionMap) (e : ExecMap) (ms : List Message) :
    (∀ (i k : Nat) (m : Message) (ti : ToolInvocation), ms[i]? = some m →
      m.parts[k]? = some (Part.toolInvocation ti) →
      ti.state = ToolState.call → ti.toolName ∈ toolsRequiringConfirmation →
      d ti.toolCallId = none →
      ∃ m', (processToolCalls d e ms)[i]? = some m' ∧
        m'.parts[k]? = some (Part.toolInvocation ti)) ∧
    ((∀ id, d id = none) → processToolCalls d e ms = ms) := by
  constructor
  · intro i k m ti hm hp hst hg hd
    cases hli : lastAssistantIdx ms with
    | none =>
      refine ⟨m, ?_, hp⟩
      simp only [processToolCalls, hli]
      exact hm
    | some li =>
      by_cases hil : i = li
      · subst hil
        refine ⟨processMessage d e m, ?_, ?_⟩
        · simp only [processToolCalls, hli]
          rw [rewriteAt_getElem?_eq, hm]
          rfl
        · simp only [processMessage]
          rw [List.getElem?_map, hp]
          have hres : resolvePart d e (Part.toolInvocation ti) = (Part.toolInvocation ti, []) :=
            resolvePart_eq_self d e _ (fun ti' h1 _ _ => by
              injection h1 with h2
              rw [← h2]
              exact hd)
          simp [hres]
      · refine ⟨m, ?_, hp⟩
        simp only [processToolCalls, hli]
        rw [rewriteAt_getElem?_ne _ _ _ _ hil]
        exact hm
  · intro hnone
    cases hli : lastAssistantIdx ms with
    | none => simp [processToolCalls, hli]
    | some li =>
      simp only [processToolCalls, hli]
      apply rewriteAt_self
      intro m _
      simp only [processMessage]
      have hall : ∀ p ∈ m.parts, (resolvePart d e p).1 = p := by
        intro p _
        rw [resolvePart_eq_self d e p (fun ti _ _ _ => hnone ti.toolCallId)]
      rw [List.map_congr_left hall]
      simp

/-- Witness for C2: the resolver pass with an empty decision payload is
the identity on a concrete history holding a pending gated call. -/
theorem undecided_call_untouched_witness :
    processToolCalls dNoneEx eEx msEx = msEx :=
  (undecided_call_untouched dNoneEx eEx msEx).2 (fun _ => rfl)

/-- C3: in the per-turn fast path only the most recent assistant message
is scanned for actionable pending confirmation-gated calls: every other
message is untouched by the pass, and the scanner only reports calls
located in the most recent assistant message. -/
theorem fast_path_only_last_assistant (d : DecisionMap) (e : ExecMap)
    (ms : List Message) (li : Nat)
    (hli : lastAssistantIdx ms = some li) :
    (∀ i, i ≠ li → (processToolCalls d e ms)[i]? = ms[i]?) ∧
    (∀ pc ∈ pendingCallScanner ms, pc.msgIdx = li) := by
  constructor
  · intro i hi
    simp only [processToolCalls, hli]
    exact rewriteAt_getElem?_ne _ _ _ _ hi
  · intro pc hpc
    simp only [pendingCallScanner, hli] at hpc
    cases hm : ms[li]? with
    | none =>
      rw [hm] at hpc
      simp at hpc
    | some m =>
      rw [hm] at hpc
      exact scanParts_msgIdx li 0 m.parts pc hpc

/-- Witness for C3: a pending gated call in an earlier assistant message
is untouched even though the decision payload would resolve it. -/
theorem fast_path_only_last_assistant_witness :
    (processToolCalls dRejectEx eEx ms3Ex)[0]? = ms3Ex[0]? :=
  (fast_path_only_last_assistant dRejectEx eEx ms3Ex 2 (by decide)).1 0 (by decide)

/-- C4: a tool call whose execution function throws — approved or
auto-executing — is rewritten to state result with the error-shaped
sentinel value; the error is not propagated as a failure of the turn
and the turn's output stream still reaches the Done terminal state. -/
theorem tool_error_captured_turn_done
    (d : DecisionMap) (e : ExecMap) (ms : List Message) (li k : Nat)
    (m : Message) (ti : ToolInvocation) (f : String → Except String String)
    (err : String) (mf : Nat → StepOut) (s : String) (budget : Nat)
    (hli : lastAssistantIdx ms = some li)
    (hm : ms[li]? = some m)
    (hp : m.parts[k]? = some (Part.toolInvocation ti))
    (hst : ti.state = ToolState.call)
    (hg : ti.toolName ∈ toolsRequiringConfirmation)
    (hd : d ti.toolCallId = some Decision.approve)
    (he : e ti.toolName = some f)
    (hf : f ti.args = Except.error err)
    (hmf : mf 0 = StepOut.text s)
    (hb : 0 < budget) :
    (runTurn d e mf budget ms).1[li]? = some (processMessage d e m) ∧
    (processMessage d e m).parts[k]? =
      some (Part.toolInvocation
        ⟨ti.toolCallId, ti.toolName, ti.args, ToolState.result,
          some (errorSentinel err)⟩) ∧
    (runTurn d e mf budget ms).2.terminal = Terminal.done ∧
    (∀ (mf2 : Nat → StepOut) (name args id s2 err2 : String)
        (f2 : String → Except String String) (b : Nat),
      mf2 0 = StepOut.callTool name args id →
      name ∉ toolsRequiringConfirmation →
      e name = some f2 → f2 args = Except.error err2 →
      mf2 1 = StepOut.text s2 →
      (genLoop e mf2 0 (b + 2)).events =
        [StreamEvent.toolCallEvt name args id,
          StreamEvent.toolResultEvt id (errorSentinel err2),
          StreamEvent.textDelta s2] ∧
      (genLoop e mf2 0 (b + 2)).terminal = Terminal.done) := by
  refine ⟨?_, ?_, ?_, ?_⟩
  · simp only [runTurn, processToolCalls, hli]
    rw [rewriteAt_getElem?_eq, hm]
    rfl
  · simp only [processMessage]
    rw [List.getElem?_map, hp]
    simp [resolvePart, hst, hg, hd, he, hf]
  · obtain ⟨b, rfl⟩ : ∃ b, budget = b + 1 := ⟨budget - 1, by omega⟩
    simp [runTurn, genLoop, hmf]
  · intro mf2 name args id s2 err2 f2 b h0 hng he2 hf2 h1
    constructor
    · simp [genLoop, h0, hng, h1, execTool, he2, hf2]
    · simp [genLoop, h0, hng, h1]

/-- Witness for C4: an approved call whose execution throws, together with
an auto-executing call whose execution throws. -/
theorem tool_error_captured_turn_done_witness :
    (runTurn dApproveEx eEx (fun _ => StepOut.text "done") 3 msEx).1[1]? =
      some (processMessage dApproveEx eEx msgAsstEx) ∧
    (processMessage dApproveEx eEx msgAsstEx).parts[0]? =
      some (Part.toolInvocation
        ⟨"call-1", "getWeatherInformation", "Tokyo", ToolState.result,
          some (errorSentinel "boom")⟩) ∧
    (runTurn dApproveEx eEx (fun _ => StepOut.text "done") 3 msEx).2.terminal =
      Terminal.done ∧
    (∀ (mf2 : Nat → StepOut) (name args id s2 err2 : String)
        (f2 : String → Except String String) (b : Nat),
      mf2 0 = StepOut.callTool name args id →
      name ∉ toolsRequiringConfirmation →
      eEx name = some f2 → f2 args = Except.error err2 →
      mf2 1 = StepOut.text s2 →
      (genLoop eEx mf2 0 (b + 2)).events =
        [StreamEvent.toolCallEvt name args id,
          StreamEvent.toolResultEvt id (errorSentinel err2),
          StreamEvent.textDelta s2] ∧
      (genLoop eEx mf2 0 (b + 2)).terminal = Terminal.done) :=
  tool_error_captured_turn_done dApproveEx eEx msEx 1 0 msgAsstEx tiEx
    (fun _ => Except.error "boom") "boom" (fun _ => StepOut.text "done") "done" 3
    (by decide) (by decide) (by decide) (by decide) (by decide) (by decide)
    (by
      show eEx "getWeatherInformation" = some (fun _ => Except.error "boom")
      simp [eEx])
    rfl rfl (by decide)

theorem genLoop_stepsUsed_le (e : ExecMap) (mf : Nat → StepOut) :
    ∀ (b step : Nat), (genLoop e mf step b).stepsUsed ≤ b := by
  intro b
  induction b with
  | zero => intro step; exact Nat.le_refl 0
  | succ b ih =>
    intro step
    cases hstep : mf step with
    | text s => simp [genLoop, hstep]
    | providerError msg => simp [genLoop, hstep]
    | callTool name args id =>
      by_cases hng : name ∈ toolsRequiringConfirmation
      · simp [genLoop, hstep, hng]
      · have h := ih (step + 1)
        simp only [genLoop, hstep, if_neg hng]
        omega

/-- C5: for every turn the multi-step generation loop executes at most the
configured maximum number of provider invocations, for every model and
every step budget; a model that re-calls an auto-executing tool on every
step consumes exactly the configured maximum number of provider
invocations and the loop then terminates with Done; the configured
maximum in the server configuration is 10. -/
theorem step_budget_forces_done (e : ExecMap) (mf : Nat → StepOut)
    (hmf : ∀ n, ∃ name args id, mf n = StepOut.callTool name args id ∧
      name ∉ toolsRequiringConfirmation) :
    (∀ (mf2 : Nat → StepOut) (step b : Nat), (genLoop e mf2 step b).stepsUsed ≤ b) ∧
    (genLoop e mf 0 maxSteps).stepsUsed = maxSteps ∧
    (genLoop e mf 0 maxSteps).terminal = Terminal.done ∧
    maxSteps = 10 := by
  have hgen : ∀ (b step : Nat), (genLoop e mf step b).stepsUsed = b ∧
      (genLoop e mf step b).terminal = Terminal.done := by
    intro b
    induction b with
    | zero => intro step; exact ⟨rfl, rfl⟩
    | succ b ih =>
      intro step
      obtain ⟨name, args, id, hcall, hng⟩ := hmf step
      have h := ih (step + 1)
      constructor
      · simp [genLoop, hcall, hng, h.1]
      · simp [genLoop, hcall, hng, h.2]
  exact ⟨fun mf2 step b => genLoop_stepsUsed_le e mf2 b step,
    (hgen maxSteps 0).1, (hgen maxSteps 0).2, rfl⟩

/-- Witness for C5: the step bound holds for a model that stops early,
and a model that re-calls the auto-executing local-time tool on every
step uses exactly 10 provider invocations. -/
theorem step_budget_forces_done_witness :
    (genLoop eEx (fun _ => StepOut.providerError "x") 0 3).stepsUsed ≤ 3 ∧
    (genLoop eEx (fun _ => StepOut.callTool "getLocalTime" "{}" "id-9") 0
        maxSteps).stepsUsed = maxSteps ∧
    (genLoop eEx (fun _ => StepOut.callTool "getLocalTime" "{}" "id-9") 0
        maxSteps).terminal = Terminal.done ∧
    maxSteps = 10 := by
  have h := step_budget_forces_done eEx
    (fun _ => StepOut.callTool "getLocalTime" "{}" "id-9")
    (fun _ => ⟨"getLocalTime", "{}", "id-9", rfl, by decide⟩)
  exact ⟨h.1 (fun _ => StepOut.providerError "x") 0 3, h.2.1, h.2.2.1, h.2.2.2⟩

theorem contentEventNeverAnn (ev : StreamEvent)
    (h : isContentEvent ev = true) : isAnnotationEvent ev = false := by
  cases ev <;> simp_all [isContentEvent, isAnnotationEvent]

def contentEx : List StreamEvent :=
  [StreamEvent.textDelta "hi", StreamEvent.toolCallEvt "t" "a" "i"]

def soEx : Option (List Source) := some [⟨"https://example.com", none⟩]

/-- C6: the googleSources annotation is emitted at most once per message
and only after every content part of the message; it is attached as a
side channel after the content stream, never interleaved within it. -/
theorem annotation_once_after_content (content : List StreamEvent)
    (so : Option (List Source))
    (hc : ∀ ev ∈ content, isContentEvent ev = true) :
    ((messageStream content so).countP (fun ev => isAnnotationEvent ev) ≤ 1) ∧
    (∀ (i j : Nat) (ev1 ev2 : StreamEvent),
      (messageStream content so)[i]? = some ev1 → isAnnotationEvent ev1 = true →
      (messageStream content so)[j]? = some ev2 → isContentEvent ev2 = true →
      j < i) := by
  have hlen : (onFinishSourceAnnotations so).length ≤ 1 := by
    cases so with
    | none => simp [onFinishSourceAnnotations]
    | some ss =>
      simp only [onFinishSourceAnnotations]
      by_cases h : ss.length > 0 <;> simp [h]
  constructor
  · simp only [messageStream]
    rw [List.countP_append, List.countP_append]
    have h1 : content.countP (fun ev => isAnnotationEvent ev) = 0 :=
      List.countP_eq_zero.2 (fun ev hev => by
        simp [contentEventNeverAnn ev (hc ev hev)])
    have h2 : ((onFinishSourceAnnotations so).map StreamEvent.annotationEvt).countP
        (fun ev => isAnnotationEvent ev) ≤ 1 := by
      calc ((onFinishSourceAnnotations so).map StreamEvent.annotationEvt).countP
            (fun ev => isAnnotationEvent ev)
          ≤ ((onFinishSourceAnnotations so).map StreamEvent.annotationEvt).length :=
            List.countP_le_length _
        _ ≤ 1 := by simpa using hlen
    have h3 : ([StreamEvent.finish] : List StreamEvent).countP
        (fun ev => isAnnotationEvent ev) = 0 := rfl
    rw [h1, h3]
    simpa using h2
  · intro i j ev1 ev2 h1 ha h2 hcont
    have hstream : messageStream content so =
        content ++ ((onFinishSourceAnnotations so).map StreamEvent.annotationEvt ++
          [StreamEvent.finish]) := by
      simp [messageStream]
    have hi : content.length ≤ i := by
      by_contra hlt
      push_neg at hlt
      rw [hstream, List.getElem?_append, if_pos hlt] at h1
      obtain ⟨hilt, rfl⟩ := List.getElem?_eq_some.1 h1
      have hcc := hc _ (List.getElem_mem hilt)
      rw [contentEventNeverAnn _ hcc] at ha
      exact Bool.false_ne_true ha
    have hj : j < content.length := by
      by_contra hge
      push_neg at hge
      rw [hstream, List.getElem?_append, if_neg (by omega)] at h2
      obtain ⟨hjlt, rfl⟩ := List.getElem?_eq_some.1 h2
      have hmem := List.getElem_mem hjlt
      rw [List.mem_append] at hmem
      rcases hmem with hmem | hmem
      · rw [List.mem_map] at hmem
        obtain ⟨ss, _, heq⟩ := hmem
        rw [← heq] at hcont
        simp [isContentEvent] at hcont
      · simp at hmem
        rw [hmem] at hcont
        simp [isContentEvent] at hcont
    omega

/-- Witness for C6 on a concrete content stream with one source. -/
theorem annotation_once_after_content_witness :
    (messageStream contentEx soEx).countP (fun ev => isAnnotationEvent ev) ≤ 1 :=
  (annotation_once_after_content contentEx soEx (by decide)).1

/-- C7: when the GOOGLE_GENERATIVE_AI_API_KEY configuration is missing,
every inbound request fails with a 500 response before any stream
starts and produces no partial output. -/
theorem missing_key_fails_before_stream (apiKey : Option String)
    (routed : Option (SimpleResponse × List StreamEvent))
    (h : apiKey = none) :
    (workerFetch apiKey routed).1.status = 500 ∧
    (workerFetch apiKey routed).2 = [] := by
  subst h
  exact ⟨rfl, rfl⟩

/-- Witness for C7 at a concrete request that would otherwise route. -/
theorem missing_key_fails_before_stream_witness :
    (workerFetch none (some (⟨200, "ok"⟩, [StreamEvent.textDelta "hi"]))).1.status = 500 ∧
    (workerFetch none (some (⟨200, "ok"⟩, [StreamEvent.textDelta "hi"]))).2 = [] :=
  missing_key_fails_before_stream none (some (⟨200, "ok"⟩, [StreamEvent.textDelta "hi"])) rfl

/-- C8: a turn that ends in the Failed terminal state closes its stream
with a single explicit error event in final position, and every event
flushed before the error is an ordinary content event that remains in
the stream, not retracted. -/
theorem provider_error_terminates_stream (e : ExecMap) (mf : Nat → StepOut)
    (step b : Nat)
    (hfail : (genLoop e mf step b).terminal = Terminal.failed) :
    ∃ es msg, (genLoop e mf step b).events = es ++ [StreamEvent.errorEvent msg] ∧
      ∀ ev ∈ es, isContentEvent ev = true := by
  revert hfail
  induction b generalizing step with
  | zero =>
    intro hfail
    simp [genLoop] at hfail
  | succ b ih =>
    intro hfail
    cases hstep : mf step with
    | text s =>
      simp [genLoop, hstep] at hfail
    | providerError msg =>
      refine ⟨[], msg, ?_, by simp⟩
      simp [genLoop, hstep]
    | callTool name args id =>
      by_cases hng : name ∈ toolsRequiringConfirmation
      · simp [genLoop, hstep, hng] at hfail
      · have hfail2 : (genLoop e mf (step + 1) b).terminal = Terminal.failed := by
          simp [genLoop, hstep, hng] at hfail
          exact hfail
        obtain ⟨es, msg, hev, hall⟩ := ih (step + 1) hfail2
        refine ⟨StreamEvent.toolCallEvt name args id ::
            StreamEvent.toolResultEvt id (execTool e name args) :: es, msg, ?_, ?_⟩
        · simp [genLoop, hstep, hng, hev]
        · intro ev hev2
          simp at hev2
          rcases hev2 with rfl | rfl | h3
          · rfl
          · rfl
          · exact hall ev h3

def mfErrEx : Nat → StepOut := fun n =>
  if n = 0 then StepOut.callTool "getLocalTime" "{}" "id-3"
  else StepOut.providerError "provider down"

/-- Witness for C8: a run with one auto tool step followed by a provider
error keeps the flushed tool events and ends with the error event. -/
theorem provider_error_terminates_stream_witness :
    ∃ es msg, (genLoop eEx mfErrEx 0 2).events = es ++ [StreamEvent.errorEvent msg] ∧
      ∀ ev ∈ es, isContentEvent ev = true :=
  provider_error_terminates_stream eEx mfErrEx 0 2 (by decide)

/-- C9: concatenating in order the blocks returned by
parseMarkdownIntoBlocks yields exactly the input string with every CRLF
pair replaced by LF: the block split is a lossless, order-preserving
partition of the normalized markdown. -/
theorem parseMarkdownIntoBlocks_lossless (s : String) :
    String.join (parseMarkdownIntoBlocks s) = String.mk (normalizeNewlines s.data) := by
  simp only [parseMarkdownIntoBlocks, markedLexer]
  have h1 : ((groupLines (splitLines (normalizeNewlines s.data))).map
        fun t => String.mk t.raw) =
      ((groupLines (splitLines (normalizeNewlines s.data))).map MdToken.raw).map
        String.mk := by
    rw [List.map_map]
    rfl
  rw [h1, join_mk, groupLines_flatten, splitLines_flatten]

def srcEx : Source := ⟨"https://example.com", none⟩

/-- C10: the googleSources annotation is written if and only if the
finished result carries a non-empty sources list; when written it
contains exactly that list, and an absent or empty sources list
produces no annotation. -/
theorem googleSources_annotation_exact (so : Option (List Source)) :
    (∀ ss, so = some ss → ss ≠ [] → onFinishSourceAnnotations so = [ss]) ∧
    (so = none → onFinishSourceAnnotations so = []) ∧
    (∀ ss, so = some ss → ss = [] → onFinishSourceAnnotations so = []) ∧
    (onFinishSourceAnnotations so ≠ [] →
      ∃ ss, so = some ss ∧ ss ≠ [] ∧ onFinishSourceAnnotations so = [ss]) := by
  refine ⟨?_, ?_, ?_, ?_⟩
  · intro ss h hne
    subst h
    simp [onFinishSourceAnnotations, List.length_pos.2 hne]
  · intro h
    subst h
    rfl
  · intro ss h he
    subst h
    subst he
    rfl
  · intro hne
    cases so with
    | none => simp [onFinishSourceAnnotations] at hne
    | some ss =>
      by_cases he : ss = []
      · subst he
        simp [onFinishSourceAnnotations] at hne
      · exact ⟨ss, rfl, he, by simp [onFinishSourceAnnotations, List.length_pos.2 he]⟩

/-- Witness for C10: one concrete nonempty sources list yields exactly
one annotation carrying that list. -/
theorem googleSources_annotation_exact_witness :
    onFinishSourceAnnotations (some [srcEx]) = [[srcEx]] :=
  (googleSources_annotation_exact (some [srcEx])).1 [srcEx] rfl (by decide)
